import Mathlib

/-!
# Verification of the Stage2-BigData indexing/search core

Shallow embedding of the repository's indexing and search core:

* `src/services/indexing-service/src/utils/text.rs` — `tokenize_text`
* `src/services/indexing-service/src/services/indexing.rs` —
  `extract_metadata_from_header`, `process_book`
* `src/services/search-service/benches/search_benchmark.rs` —
  `tokenize_query`, `matches_query`
* the `StorageBackend` contract and the `search` query engine, which are
  declared in the repository but whose implementation files are not part of
  the sources given here; those are modelled from the spec (§4.3, §4.5).

Text is modelled as `List Char`.  The embedding is at the ASCII level: the
character classes of the Rust regex crate (`\b`, `\w`, `\s`, `\d`,
`[a-zA-Z]`) and Rust's `to_lowercase`/`trim`/`split_whitespace` are modelled
by their behaviour on ASCII characters, which is where all the claims and
counterexamples live.
-/

/-- ASCII alphabetic character, the regex class `[a-zA-Z]`. -/
def isAsciiAlpha (c : Char) : Bool :=
  ('a' ≤ c && c ≤ 'z') || ('A' ≤ c && c ≤ 'Z')

/-- Word character (regex `\w`, ASCII part): letters, digits, underscore.
The regex-crate word boundary `\b` holds between a word and a non-word
character (or the text edge). -/
def isWordChar (c : Char) : Bool :=
  isAsciiAlpha c || ('0' ≤ c && c ≤ '9') || c = '_'

/-- Whitespace (regex `\s` / Rust `char::is_whitespace`, ASCII part):
space, tab, line feed, vertical tab, form feed, carriage return. -/
def isWsp (c : Char) : Bool :=
  c = ' ' || c = '\t' || c = '\n' || c = '\x0b' || c = '\x0c' || c = '\r'

/-- Model of Rust `str::to_lowercase` (ASCII level): lowercase every
character via `Char.toLower`. -/
def lowerStr (l : List Char) : List Char := l.map Char.toLower

/-- Scanner state for the regex `\b[a-zA-Z]+\b` running over a text:
either outside a letter run (remembering whether the previous character
was a word character, i.e. whether a `\b` fails here), or inside a run
(remembering whether the run's start was at a word boundary, and the run
read so far, reversed). -/
inductive ScanSt where
  | out (prevWord : Bool)
  | run (startOk : Bool) (acc : List Char)

/-- One pass of `Regex::find_iter` for `\b[a-zA-Z]+\b`
(`src/services/indexing-service/src/utils/text.rs:16-18`): emits, in
order, every maximal run of ASCII letters that is delimited on both sides
by word boundaries.  A maximal letter run adjacent to a digit, an
underscore or another word character is not a match (its `\b` fails), and
no shorter sub-run can match either. -/
def scanStep : ScanSt → List Char → List (List Char)
  | .out _, [] => []
  | .run ok acc, [] => if ok then [acc.reverse] else []
  | .out p, c :: rest =>
    if isAsciiAlpha c then scanStep (.run (!p) [c]) rest
    else scanStep (.out (isWordChar c)) rest
  | .run ok acc, c :: rest =>
    if isAsciiAlpha c then scanStep (.run ok (c :: acc)) rest
    else
      if ok && !isWordChar c then acc.reverse :: scanStep (.out (isWordChar c)) rest
      else scanStep (.out (isWordChar c)) rest

/-- `tokenize_text` (`src/services/indexing-service/src/utils/text.rs:15-21`):
lowercase the input, find all matches of `\b[a-zA-Z]+\b`, keep those of
length > 2, and collect into a `HashSet` (modelled by `dedup`). -/
def tokenize_text (text : List Char) : List (List Char) :=
  ((scanStep (.out false) (lowerStr text)).filter (fun w => 2 < w.length)).dedup

/-- All maximal runs of ASCII letters of a text, with no word-boundary
condition.  This is the tokenizer as the spec sentence describes it
("extracting maximal runs of alphabetic characters"), used to compare the
spec's description with the code's regex. -/
def runsStep : Option (List Char) → List Char → List (List Char)
  | none, [] => []
  | some acc, [] => [acc.reverse]
  | none, c :: rest =>
    if isAsciiAlpha c then runsStep (some [c]) rest else runsStep none rest
  | some acc, c :: rest =>
    if isAsciiAlpha c then runsStep (some (c :: acc)) rest
    else acc.reverse :: runsStep none rest

/-- The tokenizer exactly as §4.1 of the spec words it: "a deduplicated set
of tokens obtained by lowercasing the input, extracting maximal runs of
alphabetic characters, and retaining only runs of length > 2". -/
def specTokenize (text : List Char) : List (List Char) :=
  ((runsStep none (lowerStr text)).filter (fun w => 2 < w.length)).dedup

example : tokenize_text "Hello, World! ab c".data = ["hello".data, "world".data] := by decide
example : tokenize_text "abc1 def".data = ["def".data] := by decide
example : specTokenize "abc1 def".data = ["abc".data, "def".data] := by decide
example : tokenize_text "the the the cat".data = ["the".data, "cat".data] := by decide

/-! ## Whitespace splitting and query tokenization -/

/-- Model of Rust `str::split_whitespace`: the maximal runs of
non-whitespace characters, in order. -/
def swAux : Option (List Char) → List Char → List (List Char)
  | none, [] => []
  | some acc, [] => [acc.reverse]
  | none, c :: rest =>
    if isWsp c then swAux none rest else swAux (some [c]) rest
  | some acc, c :: rest =>
    if isWsp c then acc.reverse :: swAux none rest else swAux (some (c :: acc)) rest

/-- `split_whitespace` of a text, as a list of words. -/
def split_whitespace (l : List Char) : List (List Char) := swAux none l

/-- `tokenize_query`
(`src/services/search-service/benches/search_benchmark.rs:24-30`):
lowercase, split on whitespace, keep words of length > 2 (no
deduplication, no stripping of non-alphabetic characters). -/
def tokenize_query (query : List Char) : List (List Char) :=
  (split_whitespace (lowerStr query)).filter (fun w => 2 < w.length)

example : split_whitespace "  ab cd  e ".data = ["ab".data, "cd".data, "e".data] := by decide
example : tokenize_query "Hello,World ab".data = ["hello,world".data] := by decide

/-! ## Metadata extraction

`extract_metadata_from_header`
(`src/services/indexing-service/src/services/indexing.rs:22-61`) runs four
regexes over the whole header text:

* `(?i)title:\s*(.+)` / `(?i)author:\s*(.+)` / `(?i)language:\s*(.+)`
* `(?i)(?:release date|posting date|release|date):\s*.*?(\d{4})`

`captures` returns the leftmost match.  `\s*` is greedy and may cross
newlines; `.` and hence the captures never contain a newline; when the
tail of the pattern cannot match at one occurrence of the label the engine
moves on to the next occurrence. -/

/-- The capture of `\s*(.+)` at a fixed position: skip whitespace greedily,
backtracking one character at a time, then capture greedily up to the next
newline.  `none` exactly when every remaining character is a newline. -/
def capHelper : List Char → Option (List Char)
  | [] => none
  | c :: rest =>
    if isWsp c then
      match capHelper rest with
      | some cap => some cap
      | none =>
        if c = '\n' then none else some ((c :: rest).takeWhile (fun d => d ≠ '\n'))
    else some ((c :: rest).takeWhile (fun d => d ≠ '\n'))

/-- Leftmost match of `(?i)label\s*(.+)`: at each position, if the
case-insensitive label occurs here and `\s*(.+)` can match after it,
return that capture, else advance one position. -/
def findLabelCap (lab : List Char) : List Char → Option (List Char)
  | [] => none
  | l@(_ :: rest) =>
    if lab.isPrefixOf (lowerStr l) then
      match capHelper (l.drop lab.length) with
      | some cap => some cap
      | none => findLabelCap lab rest
    else findLabelCap lab rest

/-- Does the (lowercase) label occur, case-insensitively, anywhere in the
text? -/
def occursL (lab : List Char) : List Char → Bool
  | [] => false
  | l@(_ :: rest) => lab.isPrefixOf (lowerStr l) || occursL lab rest

/-- Model of Rust `str::trim` (ASCII level): strip whitespace from both
ends. -/
def trim (l : List Char) : List Char :=
  ((l.dropWhile isWsp).reverse.dropWhile isWsp).reverse

/-- ASCII digit. -/
def isDigitC (c : Char) : Bool := '0' ≤ c && c ≤ '9'

/-- Numeric value of a digit string. -/
def digitsVal (l : List Char) : Nat :=
  l.foldl (fun n c => n * 10 + (c.toNat - 48)) 0

/-- `\d{4}` anchored here: the value of the first four characters if they
are all digits. -/
def fourDigitVal? : List Char → Option Nat
  | a :: b :: c :: d :: _ =>
    if isDigitC a && isDigitC b && isDigitC c && isDigitC d then
      some ((((a.toNat - 48) * 10 + (b.toNat - 48)) * 10 + (c.toNat - 48)) * 10 + (d.toNat - 48))
    else none
  | _ => none

/-- Lazy `.*?(\d{4})`: scan forward for the first four consecutive digits,
never moving past a newline. -/
def scanLine : List Char → Option Nat
  | [] => none
  | l@(c :: rest) =>
    match fourDigitVal? l with
    | some y => some y
    | none => if c = '\n' then none else scanLine rest

/-- `\s*.*?(\d{4})` at a fixed position: greedy whitespace skip (which may
cross newlines), backtracking one character at a time, with the lazy digit
scan after it. -/
def digitsAfter : List Char → Option Nat
  | [] => none
  | l@(c :: rest) =>
    if isWsp c then
      match digitsAfter rest with
      | some y => some y
      | none => scanLine l
    else scanLine l

/-- The four date labels of the year regex, colon folded in, in the
regex's alternation order. -/
def dateLabels : List (List Char) :=
  ["release date:".data, "posting date:".data, "release:".data, "date:".data]

/-- Leftmost match of the year regex: at each position try the date labels
in order followed by `\s*.*?(\d{4})`; advance on failure. -/
def findYear : List Char → Option Nat
  | [] => none
  | l@(_ :: rest) =>
    match dateLabels.findSome? (fun lab =>
        if lab.isPrefixOf (lowerStr l) then digitsAfter (l.drop lab.length) else none) with
    | some y => some y
    | none => findYear rest

/-- `BookMetadata` (`src/services/indexing-service/src/models/storage.rs`,
layout as used by `indexing.rs` and described in §3 of the spec). -/
structure BookMetadata where
  book_id : Nat
  title : List Char
  author : List Char
  language : List Char
  year : Option Nat
  word_count : Nat
  unique_words : Nat
deriving DecidableEq, Repr

/-- `extract_metadata_from_header`
(`src/services/indexing-service/src/services/indexing.rs:22-61`): run the
four regexes over the header; trim the captures; title and author default
to the empty string, language to `"en"`, the year to `none`.  The
extraction is total — no input can make it fail. -/
def extract_metadata_from_header (header : List Char) (book_id : Nat) : BookMetadata :=
  { book_id := book_id
    title := ((findLabelCap "title:".data header).map trim).getD []
    author := ((findLabelCap "author:".data header).map trim).getD []
    language := ((findLabelCap "language:".data header).map trim).getD "en".data
    year := findYear header
    word_count := 0
    unique_words := 0 }

example :
    extract_metadata_from_header
      "Title: Pride and Prejudice\nAuthor: Jane Austen\nRelease Date: June 25, 2008 [EBook #1342]\nLanguage: en\n".data 1342 =
    { book_id := 1342, title := "Pride and Prejudice".data, author := "Jane Austen".data,
      language := "en".data, year := some 2008, word_count := 0, unique_words := 0 } := by
  decide

example : extract_metadata_from_header "no labels here".data 7 =
    { book_id := 7, title := [], author := [], language := "en".data, year := none,
      word_count := 0, unique_words := 0 } := by decide

/-! ## Storage backend

The `StorageBackend` trait and its Redis/PostgreSQL implementations
(`src/services/indexing-service/src/models/storage.rs`) are not among the
given sources; only their callers are.  The backend is therefore modelled
from §4.3 of the spec. -/

/-- Modelled from the spec: the `StorageBackend` state of §4.3 — a
metadata record per book id, and an inverted index mapping each word to a
set of book ids (represented as a duplicate-free list). -/
structure BackendState where
  metadata : Nat → Option BookMetadata
  index : List Char → List Nat

/-- Modelled from the spec: `store_book_metadata(metadata)` — idempotent
upsert keyed by `book_id` (§4.3). -/
def store_book_metadata (st : BackendState) (md : BookMetadata) : BackendState :=
  { st with metadata := fun i => if i = md.book_id then some md else st.metadata i }

/-- Modelled from the spec: `add_word_to_index(word, book_id)` — idempotent
add to the set for `word`; no effect if already present (§4.3). -/
def add_word_to_index (st : BackendState) (word : List Char) (book_id : Nat) : BackendState :=
  { st with index := fun w =>
      if w = word then
        if book_id ∈ st.index word then st.index word else book_id :: st.index word
      else st.index w }

/-- Modelled from the spec: `get_books_for_word(word)` — the (possibly
empty) set of book ids for the word (§4.3). -/
def get_books_for_word (st : BackendState) (word : List Char) : List Nat :=
  st.index word

/-- The empty backend. -/
def emptyBackend : BackendState := ⟨fun _ => none, fun _ => []⟩

/-! ## process_book

`process_book`
(`src/services/indexing-service/src/services/indexing.rs:63-89`), embedded
from the point where the book's header and body files have been resolved
and read (the datalake file lookup is out of scope; a book whose files do
not resolve returns early with an error and performs no backend call). -/

/-- The metadata record `process_book` stores: the header extraction with
`word_count` set to the raw whitespace-token count of the body and
`unique_words` to the size of the body's token set
(`indexing.rs:73-78`). -/
def process_book_metadata (header body : List Char) (book_id : Nat) : BookMetadata :=
  let metadata := extract_metadata_from_header header book_id
  { metadata with
    word_count := (split_whitespace body).length
    unique_words := (tokenize_text body).length }

/-- The deduplicated union of the body's and the title's token sets, the
set iterated by the indexing loop (`indexing.rs:80, 84-86`). -/
def process_book_words (header body : List Char) (book_id : Nat) : List (List Char) :=
  (tokenize_text body ++ tokenize_text (extract_metadata_from_header header book_id).title).dedup

/-- `process_book` (`indexing.rs:63-89`): extract metadata, tokenize body
and title, store the metadata, then call `add_word_to_index(word, book_id)`
once per word of the union.  Returns the final backend state together with
the sequence of `add_word_to_index` calls made. -/
def process_book (header body : List Char) (book_id : Nat) (st : BackendState) :
    BackendState × List (List Char) :=
  let metadata := process_book_metadata header body book_id
  let all_words := process_book_words header body book_id
  let st1 := store_book_metadata st metadata
  (all_words.foldl (fun s w => add_word_to_index s w book_id) st1, all_words)

/-- A single backend write performed by `process_book`. -/
inductive IndexOp where
  | storeMeta (md : BookMetadata)
  | addWord (word : List Char) (book_id : Nat)

/-- Apply one backend write. -/
def applyOp (st : BackendState) : IndexOp → BackendState
  | .storeMeta md => store_book_metadata st md
  | .addWord w id => add_word_to_index st w id

/-- The schedule of backend writes of `process_book`, in program order:
the metadata store (`indexing.rs:82`) strictly before every
`add_word_to_index` call (`indexing.rs:84-86`). -/
def process_book_ops (header body : List Char) (book_id : Nat) : List IndexOp :=
  .storeMeta (process_book_metadata header body book_id) ::
    (process_book_words header body book_id).map (fun w => .addWord w book_id)

/-- The schedule is faithful: running it is exactly `process_book`. -/
theorem process_book_ops_spec (header body : List Char) (book_id : Nat) (st : BackendState) :
    (process_book_ops header body book_id).foldl applyOp st =
      (process_book header body book_id st).1 := by
  simp only [process_book_ops, process_book, List.foldl_cons, List.foldl_map, applyOp]

/-! ## The query engine

The search service's handler (`src/services/search-service/src/`) is not
among the given sources — only its response models, tests and benchmarks
are.  The engine is modelled from §4.5 of the spec. -/

/-- Search errors (§7); only `InvalidQuery` is reachable in this model. -/
inductive SearchError where
  | invalidQuery
deriving DecidableEq, Repr

/-- Search filters (§4.5 step 4); unset filters impose no constraint. -/
structure SearchFilters where
  author : Option (List Char)
  language : Option (List Char)
  year : Option Nat
deriving DecidableEq, Repr

/-- One entry of the search response (§3 `SearchResult`); the `matches`
field of the response is called `matchTokens` here. -/
structure SearchResultEntry where
  book_id : Nat
  title : List Char
  author : List Char
  language : List Char
  year : Option Nat
  score : Nat
  matchTokens : List (List Char)
deriving DecidableEq, Repr

/-- The search response (§4.5 step 8). -/
structure SearchResponse where
  query : List Char
  filters : SearchFilters
  count : Nat
  results : List SearchResultEntry
deriving DecidableEq, Repr

/-- Substring test, model of Rust `str::contains` for a string needle. -/
def containsSub (hay needle : List Char) : Bool :=
  match hay with
  | [] => needle.isEmpty
  | _ :: rest => needle.isPrefixOf hay || containsSub rest needle

example : containsSub "hello world".data "lo w".data = true := by decide
example : containsSub "hello".data "low".data = false := by decide

/-- Modelled from the spec: the metadata filters of §4.5 step 4 — author a
case-insensitive substring, language a case-insensitive exact match, year
an exact match; all present filters must pass. -/
def passesFilters (filters : SearchFilters) (md : BookMetadata) : Bool :=
  (match filters.author with
   | none => true
   | some a => containsSub (lowerStr md.author) (lowerStr a)) &&
  (match filters.language with
   | none => true
   | some lg => lowerStr md.language == lowerStr lg) &&
  (match filters.year with
   | none => true
   | some y => md.year == some y)

/-- Modelled from the spec: scoring of §4.5 step 5 — the query tokens that
are literal case-insensitive substrings of "title author". -/
def scoreMatches (tokens : List (List Char)) (md : BookMetadata) : List (List Char) :=
  tokens.filter (fun t => containsSub (lowerStr md.title ++ ' ' :: lowerStr md.author) t)

/-- Descending by score, ties ascending by book id (§4.5 step 6). -/
def resultLE (a b : SearchResultEntry) : Bool :=
  b.score < a.score || (a.score == b.score && a.book_id ≤ b.book_id)

/-- Insertion sort by `resultLE`, the deterministic ordering of results. -/
def insertResult (a : SearchResultEntry) : List SearchResultEntry → List SearchResultEntry
  | [] => [a]
  | b :: rest => if resultLE a b then a :: b :: rest else b :: insertResult a rest

/-- Sort the scored candidates (§4.5 step 6). -/
def sortResults : List SearchResultEntry → List SearchResultEntry
  | [] => []
  | a :: rest => insertResult a (sortResults rest)

/-- Modelled from the spec: `search(query, filters, limit?)` of §4.5.
Trim the query and fail with `InvalidQuery` if it is empty; tokenize with
the Tokenizer; take the union of the per-token candidate sets from
`get_books_for_word`; keep candidates whose metadata passes all filters
(candidates with no metadata record are skipped); score by title/author
substring matches; sort; truncate to `limit`; return
`{query, filters, count = results.len(), results}`. -/
def search (query : List Char) (filters : SearchFilters) (limit : Option Nat)
    (st : BackendState) : Except SearchError SearchResponse :=
  if (trim query).isEmpty then .error .invalidQuery
  else
    let tokens := tokenize_text query
    let candidates := (tokens.foldr (fun t acc => get_books_for_word st t ++ acc) []).dedup
    let scored := candidates.filterMap (fun id =>
      match st.metadata id with
      | none => none
      | some md =>
        if passesFilters filters md then
          let ms := scoreMatches tokens md
          some ⟨id, md.title, md.author, md.language, md.year, ms.length, ms⟩
        else none)
    let sorted := sortResults scored
    let final := match limit with | none => sorted | some n => sorted.take n
    .ok ⟨query, filters, final.length, final⟩

/-- HTTP status of a search outcome: `InvalidQuery` is a client error
(400), success is 200 (§6, §7). -/
def httpStatus : Except SearchError SearchResponse → Nat
  | .error .invalidQuery => 400
  | .ok _ => 200

/-! ## matches_query (search benchmark) -/

/-- `BookResult` (`src/services/search-service/benches/search_benchmark.rs:14-21`). -/
structure BookResult where
  book_id : Nat
  title : List Char
  author : List Char
  language : List Char
  year : Option Nat
deriving DecidableEq, Repr

/-- `matches_query`
(`src/services/search-service/benches/search_benchmark.rs:33-39`): the
book's text is `format!("{} {}", title.to_lowercase(), author.to_lowercase())`,
and the book matches if ANY query word is contained in it. -/
def matches_query (book : BookResult) (query_words : List (List Char)) : Bool :=
  let book_text := lowerStr book.title ++ ' ' :: lowerStr book.author
  query_words.any (fun word => containsSub book_text word)

example :
    matches_query ⟨1342, "Pride and Prejudice".data, "Jane Austen".data, "en".data, some 1813⟩
      ["pride".data, "prejudice".data] = true := by decide
example :
    matches_query ⟨1342, "Pride and Prejudice".data, "Jane Austen".data, "en".data, some 1813⟩
      ["moby".data] = false := by decide

/-! ## Basic lemmas -/

/-- `containsSub` is exactly the substring relation. -/
theorem containsSub_iff (hay needle : List Char) :
    containsSub hay needle = true ↔ ∃ pre post, hay = pre ++ needle ++ post := by
  induction hay with
  | nil =>
    simp only [containsSub, List.isEmpty_iff]
    constructor
    · rintro rfl
      exact ⟨[], [], rfl⟩
    · rintro ⟨pre, post, h⟩
      rcases List.append_eq_nil.mp h.symm with ⟨h1, h2⟩
      exact (List.append_eq_nil.mp h1).2
  | cons c rest ih =>
    simp only [containsSub, Bool.or_eq_true, List.isPrefixOf_iff_prefix, ih]
    constructor
    · rintro (⟨t, ht⟩ | ⟨pre, post, h⟩)
      · exact ⟨[], t, by simpa using ht.symm⟩
      · exact ⟨c :: pre, post, by simp [h]⟩
    · rintro ⟨pre, post, h⟩
      cases pre with
      | nil => exact Or.inl ⟨post, by simpa using h.symm⟩
      | cons d pre' =>
        right
        refine ⟨pre', post, ?_⟩
        have := h
        simp only [List.cons_append] at this
        exact (List.cons_eq_cons.mp this).2

/-- Finsets ignore deduplication. -/
theorem toFinset_dedup {α : Type} [DecidableEq α] (l : List α) :
    l.dedup.toFinset = l.toFinset := by
  ext a
  simp [List.mem_dedup]

/-- Tokenizer output is duplicate-free (it models a `HashSet`). -/
theorem tokenize_text_nodup (text : List Char) : (tokenize_text text).Nodup :=
  List.nodup_dedup _

/-! ## C4 — matches_query -/

/-- **C4.** For every book record and every non-empty list of query
tokens, `matches_query` holds iff at least one query token is a literal
case-insensitive substring of the concatenation of the book's title and
author (joined by one space, as `format!("{} {}", ..)` builds it):
OR-semantics across tokens, and the body vocabulary is not consulted —
the predicate reads nothing but the book's title and author. -/
theorem matches_query_iff_substring (book : BookResult) (qws : List (List Char))
    (_hne : qws ≠ []) :
    matches_query book qws = true ↔
      ∃ w ∈ qws, ∃ pre post,
        lowerStr book.title ++ ' ' :: lowerStr book.author = pre ++ w ++ post := by
  simp only [matches_query, List.any_eq_true, containsSub_iff]

/-- Witness for C4 at the spec's §8 scenario. -/
theorem matches_query_iff_substring_witness :
    (["pride".data, "moby".data] : List (List Char)) ≠ [] ∧
    (matches_query ⟨1342, "Pride and Prejudice".data, "Jane Austen".data, "en".data, some 1813⟩
        ["pride".data, "moby".data] = true ↔
      ∃ w ∈ [("pride".data : List Char), "moby".data], ∃ pre post,
        lowerStr "Pride and Prejudice".data ++ ' ' :: lowerStr "Jane Austen".data =
          pre ++ w ++ post) :=
  ⟨by decide,
   matches_query_iff_substring
     ⟨1342, "Pride and Prejudice".data, "Jane Austen".data, "en".data, some 1813⟩
     ["pride".data, "moby".data] (by decide)⟩

/-! ## C8 — search error handling -/

/-- If no query token has any indexed book, the candidate pool is empty. -/
theorem foldr_books_nil (st : BackendState) (ts : List (List Char))
    (h : ∀ t ∈ ts, get_books_for_word st t = []) :
    ts.foldr (fun t acc => get_books_for_word st t ++ acc) [] = ([] : List Nat) := by
  induction ts with
  | nil => rfl
  | cons a ts ih =>
    simp only [List.foldr_cons, h a (by simp),
      ih (fun t ht => h t (List.mem_cons_of_mem a ht)), List.nil_append]

/-- **C8.** `search` fails with `InvalidQuery` (HTTP 400) exactly when the
query is empty or blank after trimming; a non-blank query whose tokens
match no indexed book succeeds (HTTP 200) with `count = 0` and an empty
result list. -/
theorem search_invalid_query_and_empty (q : List Char) (filters : SearchFilters)
    (limit : Option Nat) (st : BackendState) :
    (search q filters limit st = .error .invalidQuery ↔ trim q = []) ∧
    (trim q = [] → httpStatus (search q filters limit st) = 400) ∧
    (trim q ≠ [] → (∀ t ∈ tokenize_text q, get_books_for_word st t = []) →
      search q filters limit st = .ok ⟨q, filters, 0, []⟩ ∧
      httpStatus (search q filters limit st) = 200) := by
  by_cases h : (trim q).isEmpty
  · have hq : trim q = [] := List.isEmpty_iff.mp h
    refine ⟨by simp [search, h, hq], fun _ => by simp [search, h, httpStatus], fun hne _ => ?_⟩
    exact absurd hq hne
  · have hq : ¬ trim q = [] := fun e => h (List.isEmpty_iff.mpr e)
    refine ⟨by simp [search, h, hq], fun e => absurd e hq, fun _ hnone => ?_⟩
    have hc := foldr_books_nil st (tokenize_text q) hnone
    constructor
    · simp only [search, if_neg h, hc]
      cases limit <;> simp [sortResults]
    · simp only [search, if_neg h, hc, httpStatus]

/-- Witness for C8: the spec's §8 scenario `q = "xyzneverexistingword"`
against an empty index. -/
theorem search_invalid_query_and_empty_witness :
    trim "xyzneverexistingword".data ≠ [] ∧
    search "xyzneverexistingword".data ⟨none, none, none⟩ none emptyBackend =
      .ok ⟨"xyzneverexistingword".data, ⟨none, none, none⟩, 0, []⟩ :=
  ⟨by decide,
   ((search_invalid_query_and_empty "xyzneverexistingword".data ⟨none, none, none⟩ none
      emptyBackend).2.2 (by decide) (fun t _ => rfl)).1⟩

/-! ## C2 — process_book indexes the union exactly once, round-trip -/

/-- Adding a word registers the book under it. -/
theorem add_word_mem_self (st : BackendState) (w : List Char) (id : Nat) :
    id ∈ (add_word_to_index st w id).index w := by
  simp only [add_word_to_index, if_pos rfl]
  by_cases h : id ∈ st.index w
  · simp [h]
  · simp [h]

/-- Adding a word never removes an existing index entry. -/
theorem add_word_mem_mono (st : BackendState) (w' : List Char) (id' : Nat)
    (w : List Char) (id : Nat) (h : id ∈ st.index w) :
    id ∈ (add_word_to_index st w' id').index w := by
  simp only [add_word_to_index]
  by_cases hw : w = w'
  · subst hw
    by_cases h' : id' ∈ st.index w
    · simpa [h']
    · simp [h', List.mem_cons]
      exact Or.inr h
  · simpa [hw]

/-- After the indexing loop, every word of the list maps to the book. -/
theorem foldl_add_word_mem (ws : List (List Char)) (book_id : Nat) (st : BackendState)
    (w : List Char) (h : w ∈ ws) :
    book_id ∈ ((ws.foldl (fun s v => add_word_to_index s v book_id) st).index w) := by
  induction ws generalizing st with
  | nil => cases h
  | cons v ws ih =>
    rcases List.mem_cons.mp h with rfl | hm
    · simp only [List.foldl_cons]
      -- after the first add the entry exists; the rest of the loop keeps it
      have base := add_word_mem_self st w book_id
      clear h ih
      generalize add_word_to_index st w book_id = st1 at base ⊢
      induction ws generalizing st1 with
      | nil => exact base
      | cons u us ihu =>
        exact ihu _ (add_word_mem_mono st1 u book_id w book_id base)
    · exact ih (add_word_to_index st v book_id) hm

/-- `List.count` under the structural `BEq` and under decidable equality
agree. -/
theorem count_default_eq_decEq (w : List Char) (l : List (List Char)) :
    l.count w = @List.count (List Char) instBEqOfDecidableEq w l := by
  have hp : (fun x : List Char => x == w) = (fun x : List Char => decide (x = w)) := by
    funext x
    by_cases h : x = w <;> simp [h]
  show List.countP (fun x => x == w) l = List.countP (fun x => decide (x = w)) l
  rw [hp]

/-- **C2.** For every book whose header and body resolve, `process_book`
calls `add_word_to_index(word, book_id)` exactly once for each distinct
word of the union of the body's and the title's token sets (and for no
other word), and afterwards every word of that union has `book_id` in
`get_books_for_word(word)`. -/
theorem process_book_union_once_roundtrip (header body : List Char) (book_id : Nat)
    (st : BackendState) :
    (∀ w : List Char,
      (process_book header body book_id st).2.count w =
        if w ∈ (tokenize_text body).toFinset ∪
              (tokenize_text (extract_metadata_from_header header book_id).title).toFinset
        then 1 else 0) ∧
    (∀ w ∈ (tokenize_text body).toFinset ∪
        (tokenize_text (extract_metadata_from_header header book_id).title).toFinset,
      book_id ∈ get_books_for_word (process_book header body book_id st).1 w) := by
  have hmem : ∀ w : List Char,
      (w ∈ (tokenize_text body).toFinset ∪
        (tokenize_text (extract_metadata_from_header header book_id).title).toFinset) ↔
      w ∈ process_book_words header body book_id := by
    intro w
    simp [process_book_words, List.mem_dedup, Finset.mem_union]
  constructor
  · intro w
    by_cases h : w ∈ (tokenize_text body).toFinset ∪
        (tokenize_text (extract_metadata_from_header header book_id).title).toFinset
    · rw [if_pos h, count_default_eq_decEq]
      exact List.count_eq_one_of_mem (List.nodup_dedup _) ((hmem w).mp h)
    · rw [if_neg h]
      exact List.count_eq_zero.mpr (fun hc => h ((hmem w).mpr hc))
  · intro w hw
    exact foldl_add_word_mem _ book_id _ w ((hmem w).mp hw)

/-- Witness for C2: a body token and a title token both end up indexed. -/
theorem process_book_union_once_roundtrip_witness :
    ("cats".data ∈ (tokenize_text "dogs and dogs".data).toFinset ∪
      (tokenize_text (extract_metadata_from_header "Title: Cats\n".data 5).title).toFinset) ∧
    5 ∈ get_books_for_word (process_book "Title: Cats\n".data "dogs and dogs".data 5 emptyBackend).1
        "cats".data :=
  ⟨by decide,
   (process_book_union_once_roundtrip "Title: Cats\n".data "dogs and dogs".data 5
      emptyBackend).2 "cats".data (by decide)⟩

/-! ## C3 — stored word_count and unique_words -/

/-- The indexing loop does not touch metadata. -/
theorem foldl_add_word_metadata (ws : List (List Char)) (book_id : Nat) (st : BackendState) :
    (ws.foldl (fun s v => add_word_to_index s v book_id) st).metadata = st.metadata := by
  induction ws generalizing st with
  | nil => rfl
  | cons v ws ih => simpa using ih (add_word_to_index st v book_id)

/-- **C3.** For every successfully processed book, the stored metadata's
`word_count` is the number of whitespace-delimited tokens of the raw body
text, and `unique_words` is the cardinality of the body's normalized token
set — title tokens excluded. -/
theorem process_book_stored_counts (header body : List Char) (book_id : Nat)
    (st : BackendState) (md : BookMetadata)
    (h : (process_book header body book_id st).1.metadata book_id = some md) :
    md.word_count = (split_whitespace body).length ∧
    md.unique_words = (tokenize_text body).toFinset.card := by
  have hb : (process_book_metadata header body book_id).book_id = book_id := rfl
  have : (process_book header body book_id st).1.metadata book_id =
      some (process_book_metadata header body book_id) := by
    simp [process_book, foldl_add_word_metadata, store_book_metadata, hb]
  rw [this] at h
  obtain rfl : process_book_metadata header body book_id = md := by
    exact Option.some_injective _ h
  refine ⟨rfl, ?_⟩
  show (tokenize_text body).length = (tokenize_text body).toFinset.card
  rw [List.card_toFinset, List.dedup_eq_self.mpr (tokenize_text_nodup body)]

/-- Witness for C3. -/
theorem process_book_stored_counts_witness :
    ({ book_id := 9, title := "Ab".data, author := [], language := "en".data, year := none,
       word_count := 3, unique_words := 2 } : BookMetadata).word_count =
      (split_whitespace "hello world hello".data).length ∧
    ({ book_id := 9, title := "Ab".data, author := [], language := "en".data, year := none,
       word_count := 3, unique_words := 2 } : BookMetadata).unique_words =
      (tokenize_text "hello world hello".data).toFinset.card :=
  process_book_stored_counts "Title: Ab\n".data "hello world hello".data 9 emptyBackend
    { book_id := 9, title := "Ab".data, author := [], language := "en".data, year := none,
      word_count := 3, unique_words := 2 } (by decide)

/-! ## C10 — metadata is stored before any index entry -/

/-- The consistency invariant: no index entry without a metadata record. -/
def IndexMetaInv (st : BackendState) : Prop :=
  ∀ id w, id ∈ st.index w → st.metadata id ≠ none

/-- Storing metadata preserves the invariant. -/
theorem storeMeta_inv (st : BackendState) (md : BookMetadata) (h : IndexMetaInv st) :
    IndexMetaInv (store_book_metadata st md) := by
  intro id w hm
  simp only [store_book_metadata]
  by_cases hid : id = md.book_id
  · simp [hid]
  · simpa [hid] using h id w hm

/-- Adding a word for a book whose metadata is present preserves it. -/
theorem addWord_inv (st : BackendState) (w' : List Char) (id' : Nat)
    (h : IndexMetaInv st) (hmeta : st.metadata id' ≠ none) :
    IndexMetaInv (add_word_to_index st w' id') := by
  intro id w hm
  simp only [add_word_to_index] at hm ⊢
  by_cases hw : w = w'
  · rw [if_pos hw] at hm
    by_cases hin : id' ∈ st.index w'
    · rw [if_pos hin] at hm
      exact h id w' hm
    · rw [if_neg hin] at hm
      rcases List.mem_cons.mp hm with rfl | hm'
      · exact hmeta
      · exact h id w' hm'
  · rw [if_neg hw] at hm
    exact h id w hm

/-- **C10.** In `process_book` the metadata store precedes every
`add_word_to_index` call, so every prefix of the write schedule preserves
the invariant "if any word's index set contains a book id, that book's
metadata record is stored": an index entry never exists without its
metadata record at any intermediate point. -/
theorem process_book_meta_before_index (header body : List Char) (book_id : Nat)
    (st : BackendState) (hst : IndexMetaInv st) (k : Nat) :
    IndexMetaInv (((process_book_ops header body book_id).take k).foldl applyOp st) := by
  cases k with
  | zero => simpa using hst
  | succ k =>
    simp only [process_book_ops, List.take_succ_cons, List.foldl_cons, ← List.map_take]
    have h1 : IndexMetaInv (applyOp st (.storeMeta (process_book_metadata header body book_id))) :=
      storeMeta_inv st _ hst
    have h2 : (applyOp st (.storeMeta (process_book_metadata header body book_id))).metadata
        book_id ≠ none := by
      simp [applyOp, store_book_metadata, show (process_book_metadata header body book_id).book_id
        = book_id from rfl]
    generalize applyOp st (.storeMeta (process_book_metadata header body book_id)) = st1 at h1 h2
    generalize (process_book_words header body book_id).take k = ws
    induction ws generalizing st1 with
    | nil => exact h1
    | cons w ws ih =>
      simp only [List.map_cons, List.foldl_cons]
      refine ih (add_word_to_index st1 w book_id) (addWord_inv st1 w book_id h1 h2) ?_
      simpa [add_word_to_index] using h2

/-- Witness for C10: first two writes of a concrete book on an empty
backend. -/
theorem process_book_meta_before_index_witness :
    IndexMetaInv emptyBackend ∧
    IndexMetaInv (((process_book_ops "Title: Cats\n".data "dogs and dogs".data 5).take 2).foldl
      applyOp emptyBackend) :=
  ⟨fun id _w h => absurd h (List.not_mem_nil id),
   process_book_meta_before_index "Title: Cats\n".data "dogs and dogs".data 5 emptyBackend
     (fun id _w h => absurd h (List.not_mem_nil id)) 2⟩

/-! ## C6 — extraction never fails, fields default -/

/-- If the label occurs nowhere, its regex has no match. -/
theorem findLabelCap_eq_none_of_not_occurs (lab s : List Char)
    (h : occursL lab s = false) : findLabelCap lab s = none := by
  induction s with
  | nil => rfl
  | cons c rest ih =>
    rw [occursL, Bool.or_eq_false_iff] at h
    simp only [findLabelCap, h.1, Bool.false_eq_true, if_false, ih h.2]

/-- The year regex matches nowhere iff no position carries a date label
whose tail yields four digits. -/
theorem findYear_eq_none_iff (s : List Char) :
    findYear s = none ↔
      ∀ i, ∀ lab ∈ dateLabels, lab.isPrefixOf (lowerStr (s.drop i)) = true →
        digitsAfter ((s.drop i).drop lab.length) = none := by
  induction s with
  | nil =>
    simp only [findYear, List.drop_nil, true_iff]
    intro i lab hm hp
    simp only [dateLabels, List.mem_cons, List.not_mem_nil, or_false] at hm
    rcases hm with rfl | rfl | rfl | rfl <;> exact absurd hp (by decide)
  | cons c rest ih =>
    rcases hfs : dateLabels.findSome? (fun lab =>
        if lab.isPrefixOf (lowerStr (c :: rest)) then
          digitsAfter ((c :: rest).drop lab.length) else none) with _ | y
    · have hzero : ∀ lab ∈ dateLabels, lab.isPrefixOf (lowerStr (c :: rest)) = true →
          digitsAfter ((c :: rest).drop lab.length) = none := by
        intro lab hm hp
        have := List.findSome?_eq_none_iff.mp hfs lab hm
        rwa [if_pos hp] at this
      rw [findYear, hfs]
      rw [ih]
      constructor
      · intro h i
        cases i with
        | zero => simpa using hzero
        | succ j => simpa using h j
      · intro h i
        have := h (i + 1)
        simpa using this
    · have hred : findYear (c :: rest) = some y := by
        rw [findYear, hfs]
      rw [hred]
      obtain ⟨lab, hm, hsome⟩ := List.exists_of_findSome?_eq_some hfs
      rcases hp : lab.isPrefixOf (lowerStr (c :: rest)) with _ | _
      · rw [if_neg (by simp [hp])] at hsome
        cases hsome
      · rw [if_pos hp] at hsome
        constructor
        · intro h
          cases h
        · intro h
          have h0 := h 0 lab hm (by simpa using hp)
          simp only [List.drop_zero] at h0
          rw [h0] at hsome
          cases hsome

/-- **C6.** Metadata extraction is total and best-effort: for every header
and book id it returns a `BookMetadata`; when the `title:`/`author:`
labels are absent the fields default to the empty string, when
`language:` is absent the language defaults to `"en"`, and the year is
absent exactly when no position of the header carries a date label
followed by four digits. -/
theorem extract_metadata_defaults (header : List Char) (book_id : Nat) :
    ((occursL "title:".data header = false →
        (extract_metadata_from_header header book_id).title = []) ∧
      (occursL "author:".data header = false →
        (extract_metadata_from_header header book_id).author = []) ∧
      (occursL "language:".data header = false →
        (extract_metadata_from_header header book_id).language = "en".data)) ∧
    ((extract_metadata_from_header header book_id).year = none ↔
      ∀ i, ∀ lab ∈ dateLabels, lab.isPrefixOf (lowerStr (header.drop i)) = true →
        digitsAfter ((header.drop i).drop lab.length) = none) := by
  refine ⟨⟨fun h => ?_, fun h => ?_, fun h => ?_⟩, ?_⟩
  · simp [extract_metadata_from_header, findLabelCap_eq_none_of_not_occurs _ _ h]
  · simp [extract_metadata_from_header, findLabelCap_eq_none_of_not_occurs _ _ h]
  · simp [extract_metadata_from_header, findLabelCap_eq_none_of_not_occurs _ _ h]
  · show findYear header = none ↔ _
    exact findYear_eq_none_iff header

/-- Witness for C6 on a header with no labels at all. -/
theorem extract_metadata_defaults_witness :
    occursL "title:".data "plain header text".data = false ∧
    (extract_metadata_from_header "plain header text".data 3).title = [] ∧
    (extract_metadata_from_header "plain header text".data 3).language = "en".data :=
  ⟨by decide,
   (extract_metadata_defaults "plain header text".data 3).1.1 (by decide),
   (extract_metadata_defaults "plain header text".data 3).1.2.2 (by decide)⟩

/-! ## Characterizing the tokenizer (for C1 and C9) -/

/-- Valid code points below the surrogate range. -/
theorem isValidChar_of_lt (n : Nat) (h : n < 55296) : n.isValidChar := Or.inl h

/-- `Char.ofNat` of a valid code point has that code point. -/
theorem char_toNat_ofNat (n : Nat) (h : n.isValidChar) : (Char.ofNat n).toNat = n := by
  simp [Char.ofNat, h, Char.toNat, Char.ofNatAux, UInt32.toNat, BitVec.toNat_ofNatLt]

/-- Unfolding of `Char.toLower`. -/
theorem toLower_eq (d : Char) :
    Char.toLower d = if d.toNat ≥ 65 ∧ d.toNat ≤ 90 then Char.ofNat (d.toNat + 32) else d := rfl

/-- An ASCII-alphabetic character in the image of `Char.toLower` is a
lowercase letter. -/
theorem toLower_alpha_lower (d : Char) (h : isAsciiAlpha (Char.toLower d) = true) :
    'a' ≤ Char.toLower d ∧ Char.toLower d ≤ 'z' := by
  by_cases hd : d.toNat ≥ 65 ∧ d.toNat ≤ 90
  · rw [toLower_eq, if_pos hd]
    rw [toLower_eq, if_pos hd] at h
    have hv : (d.toNat + 32).isValidChar := isValidChar_of_lt _ (by omega)
    have ht := char_toNat_ofNat (d.toNat + 32) hv
    constructor
    · show (97 : Nat) ≤ (Char.ofNat (d.toNat + 32)).toNat
      omega
    · show (Char.ofNat (d.toNat + 32)).toNat ≤ (122 : Nat)
      omega
  · rw [toLower_eq, if_neg hd]
    rw [toLower_eq, if_neg hd] at h
    simp only [isAsciiAlpha, Bool.or_eq_true, Bool.and_eq_true, decide_eq_true_eq] at h
    rcases h with h | h
    · exact h
    · exfalso
      have h1 : (65 : Nat) ≤ d.toNat := h.1
      have h2 : d.toNat ≤ (90 : Nat) := h.2
      omega

/-- Letters are word characters. -/
theorem alpha_isWord (c : Char) (h : isAsciiAlpha c = true) : isWordChar c = true := by
  simp [isWordChar, h]

/-- Non-word characters are not letters. -/
theorem not_alpha_of_not_word (c : Char) (h : isWordChar c = false) :
    isAsciiAlpha c = false := by
  cases hx : isAsciiAlpha c
  · rfl
  · rw [alpha_isWord c hx] at h
    cases h

/-- Every character of the token is an ASCII letter. -/
def alphaAll (t : List Char) : Prop := ∀ c ∈ t, isAsciiAlpha c = true

/-- The character right after the token, if any, is not a word character
(the closing `\b`). -/
def headBoundary (post : List Char) : Prop :=
  ∀ d, post.head? = some d → isWordChar d = false

/-- The character right before the token, if any, is not a word character
(the opening `\b`). -/
def lastBoundary (pre : List Char) : Prop :=
  ∀ d, pre.getLast? = some d → isWordChar d = false

/-- A token found somewhere in the text with both boundaries. -/
def Pfull (l t : List Char) : Prop :=
  t ≠ [] ∧ alphaAll t ∧
    ∃ pre post, l = pre ++ t ++ post ∧ pre ≠ [] ∧ lastBoundary pre ∧ headBoundary post

/-- A token at the very start of the text with its closing boundary. -/
def Pstart (l t : List Char) : Prop :=
  t ≠ [] ∧ alphaAll t ∧ ∃ post, l = t ++ post ∧ headBoundary post

/-- Prepending a character preserves an interior token. -/
theorem Pfull_cons (c : Char) (l t : List Char) (h : Pfull l t) : Pfull (c :: l) t := by
  obtain ⟨hne, hA, pre, post, rfl, hpne, hlast, hhead⟩ := h
  refine ⟨hne, hA, c :: pre, post, by simp, by simp, ?_, hhead⟩
  intro d hd
  cases pre with
  | nil => exact absurd rfl hpne
  | cons x xs =>
    rw [List.getLast?_cons_cons] at hd
    exact hlast d hd

/-- A token at the start, preceded by a non-word character, is interior. -/
theorem Pfull_of_start (c : Char) (hw : isWordChar c = false) (l t : List Char)
    (h : Pstart l t) : Pfull (c :: l) t := by
  obtain ⟨hne, hA, post, rfl, hhead⟩ := h
  refine ⟨hne, hA, [c], post, by simp, by simp, ?_, hhead⟩
  intro d hd
  simp only [List.getLast?_singleton, Option.some.injEq] at hd
  subst hd
  exact hw

/-- Soundness of the scanner: every emitted token is an alphabetic run
with word boundaries on both sides, placed in the scanned text (relative
to the current scanner state). -/
theorem scan_sound (l : List Char) : ∀ (st : ScanSt) (t : List Char), t ∈ scanStep st l →
    (match st with
     | .out p => (p = false ∧ Pstart l t) ∨ Pfull l t
     | .run ok acc => (ok = true ∧ ∃ mid post, l = mid ++ post ∧ alphaAll mid ∧
         t = acc.reverse ++ mid ∧ headBoundary post) ∨ Pfull l t) := by
  induction l with
  | nil =>
    intro st t ht
    cases st with
    | out p => simp [scanStep] at ht
    | run ok acc =>
      simp only [scanStep] at ht
      cases ok with
      | false => simp at ht
      | true =>
        simp only [if_true, List.mem_singleton] at ht
        subst ht
        left
        exact ⟨rfl, [], [], by simp, fun x hx => absurd hx (List.not_mem_nil x), by simp,
          fun d hd => by cases hd⟩
  | cons c rest ih =>
    intro st t ht
    cases st with
    | out p =>
      by_cases hα : isAsciiAlpha c = true
      · simp only [scanStep, hα, if_true] at ht
        have := ih (.run (!p) [c]) t ht
        rcases this with ⟨hok, mid, post, hrest, hmα, hteq, hhead⟩ | hP
        · left
          have hp : p = false := by
            cases p
            · rfl
            · exact absurd hok (by simp)
          have hteq' : t = c :: mid := by simpa using hteq
          refine ⟨hp, by simp [hteq'], ?_, post, ?_, hhead⟩
          · intro x hx
            rw [hteq'] at hx
            rcases List.mem_cons.mp hx with rfl | hx'
            · exact hα
            · exact hmα x hx'
          · rw [hteq', hrest]
            simp
        · exact Or.inr (Pfull_cons c rest t hP)
      · simp only [scanStep, hα, Bool.false_eq_true, if_false] at ht
        have := ih (.out (isWordChar c)) t ht
        rcases this with ⟨hw, hPs⟩ | hP
        · exact Or.inr (Pfull_of_start c hw rest t hPs)
        · exact Or.inr (Pfull_cons c rest t hP)
    | run ok acc =>
      by_cases hα : isAsciiAlpha c = true
      · simp only [scanStep, hα, if_true] at ht
        have := ih (.run ok (c :: acc)) t ht
        rcases this with ⟨hok, mid, post, hrest, hmα, hteq, hhead⟩ | hP
        · left
          refine ⟨hok, c :: mid, post, by simp [hrest], ?_, ?_, hhead⟩
          · intro x hx
            rcases List.mem_cons.mp hx with rfl | hx'
            · exact hα
            · exact hmα x hx'
          · rw [hteq]
            simp
        · exact Or.inr (Pfull_cons c rest t hP)
      · simp only [scanStep, hα, Bool.false_eq_true, if_false] at ht
        by_cases hcond : (ok && !isWordChar c) = true
        · rw [if_pos hcond] at ht
          have hcond2 := hcond
          simp only [Bool.and_eq_true, Bool.not_eq_eq_eq_not, Bool.not_true] at hcond2
          have hok : ok = true := hcond2.1
          have hw : isWordChar c = false := hcond2.2
          rcases List.mem_cons.mp ht with rfl | ht'
          · left
            refine ⟨hok, [], c :: rest, by simp, fun x hx => absurd hx (List.not_mem_nil x),
              by simp, ?_⟩
            intro d hd
            simp only [List.head?_cons, Option.some.injEq] at hd
            subst hd
            exact hw
          · have := ih (.out (isWordChar c)) t ht'
            rcases this with ⟨_, hPs⟩ | hP
            · exact Or.inr (Pfull_of_start c hw rest t hPs)
            · exact Or.inr (Pfull_cons c rest t hP)
        · rw [if_neg hcond] at ht
          have := ih (.out (isWordChar c)) t ht
          rcases this with ⟨hw, hPs⟩ | hP
          · exact Or.inr (Pfull_of_start c hw rest t hPs)
          · exact Or.inr (Pfull_cons c rest t hP)

/-- Completeness, run continuation: from inside a run whose start boundary
held, reading the rest of the letters and then a boundary emits the
token. -/
theorem scan_complete_run (mid : List Char) : ∀ (acc post : List Char), alphaAll mid →
    headBoundary post → (acc.reverse ++ mid) ∈ scanStep (.run true acc) (mid ++ post) := by
  induction mid with
  | nil =>
    intro acc post _ hhead
    cases post with
    | nil =>
      simp [scanStep]
    | cons d ps =>
      have hw : isWordChar d = false := hhead d rfl
      have hα : isAsciiAlpha d = false := not_alpha_of_not_word d hw
      simp [scanStep, hα, hw]
  | cons m mid' ih =>
    intro acc post hA hhead
    have hm : isAsciiAlpha m = true := hA m (List.mem_cons_self m mid')
    simp only [List.cons_append, scanStep, hm, if_true]
    have := ih (m :: acc) post (fun x hx => hA x (List.mem_cons_of_mem m hx)) hhead
    simpa using this

/-- The empty prefix imposes no opening boundary. -/
theorem lastBoundary_nil : lastBoundary [] := fun d hd => by simp at hd

/-- Completeness, token at the start of the scanned text. -/
theorem scan_complete_start (t post : List Char) (hne : t ≠ []) (hA : alphaAll t)
    (hhead : headBoundary post) : t ∈ scanStep (.out false) (t ++ post) := by
  cases t with
  | nil => exact absurd rfl hne
  | cons t0 t' =>
    have h0 : isAsciiAlpha t0 = true := hA t0 (List.mem_cons_self t0 t')
    simp only [List.cons_append, scanStep, h0, if_true]
    have := scan_complete_run t' [t0] post (fun x hx => hA x (List.mem_cons_of_mem t0 hx)) hhead
    simpa using this

/-- Completeness, interior token: walking over any prefix that ends in a
non-word character, from any scanner state, still emits the token. -/
theorem scan_complete_walk (pre : List Char) : ∀ (st : ScanSt) (t post : List Char),
    pre ≠ [] → lastBoundary pre → t ≠ [] → alphaAll t → headBoundary post →
    t ∈ scanStep st (pre ++ t ++ post) := by
  induction pre with
  | nil => intro st t post hne; exact absurd rfl hne
  | cons c pre' ih =>
    intro st t post _ hlast hne hA hhead
    by_cases hp : pre' = []
    · subst hp
      have hw : isWordChar c = false := hlast c rfl
      have hα : isAsciiAlpha c = false := not_alpha_of_not_word c hw
      have hstart := scan_complete_start t post hne hA hhead
      cases st with
      | out p =>
        simpa [scanStep, hα, hw] using hstart
      | run ok acc =>
        simp only [List.singleton_append, List.cons_append, scanStep, hα, Bool.false_eq_true,
          if_false, hw, Bool.not_false, Bool.and_true]
        cases ok with
        | false =>
          simpa [scanStep, hα, hw] using hstart
        | true =>
          simp only [if_true, List.mem_cons]
          right
          simpa [scanStep, hα, hw] using hstart
    · have hlast' : lastBoundary pre' := by
        intro d hd
        apply hlast
        cases pre' with
        | nil => exact absurd rfl hp
        | cons x xs => rw [List.getLast?_cons_cons]; exact hd
      cases st with
      | out p =>
        by_cases hα : isAsciiAlpha c = true
        · simp only [List.cons_append, scanStep, hα, if_true]
          exact ih (.run (!p) [c]) t post hp hlast' hne hA hhead
        · simp only [List.cons_append, scanStep, hα, Bool.false_eq_true, if_false]
          exact ih (.out (isWordChar c)) t post hp hlast' hne hA hhead
      | run ok acc =>
        by_cases hα : isAsciiAlpha c = true
        · simp only [List.cons_append, scanStep, hα, if_true]
          exact ih (.run ok (c :: acc)) t post hp hlast' hne hA hhead
        · simp only [List.cons_append, scanStep, hα, Bool.false_eq_true, if_false]
          by_cases hcond : (ok && !isWordChar c) = true
          · rw [if_pos hcond]
            exact List.mem_cons_of_mem _ (ih (.out (isWordChar c)) t post hp hlast' hne hA hhead)
          · rw [if_neg hcond]
            exact ih (.out (isWordChar c)) t post hp hlast' hne hA hhead

/-- The matches of `\b[a-zA-Z]+\b` on a text are exactly the nonempty
all-letter segments with non-word characters (or the text edge) on both
sides. -/
theorem scanStep_mem_iff (l t : List Char) :
    t ∈ scanStep (.out false) l ↔
      t ≠ [] ∧ alphaAll t ∧
        ∃ pre post, l = pre ++ t ++ post ∧ lastBoundary pre ∧ headBoundary post := by
  constructor
  · intro ht
    have := scan_sound l (.out false) t ht
    rcases this with ⟨_, hne, hA, post, hl, hhead⟩ | ⟨hne, hA, pre, post, hl, _, hlast, hhead⟩
    · exact ⟨hne, hA, [], post, by simpa using hl, lastBoundary_nil, hhead⟩
    · exact ⟨hne, hA, pre, post, hl, hlast, hhead⟩
  · rintro ⟨hne, hA, pre, post, rfl, hlast, hhead⟩
    cases pre with
    | nil => simpa using scan_complete_start t post hne hA hhead
    | cons x xs =>
      exact scan_complete_walk (x :: xs) (.out false) t post (by simp) hlast hne hA hhead

/-! ## C1 — the tokenizer contract -/

/-- Counterexample to C1 as stated: on `"abc1"` the code returns no token
at all, while "maximal runs of alphabetic characters of length > 2" would
return `"abc"` — the regex `\b[a-zA-Z]+\b` refuses a letter run adjacent
to a digit, because the boundary between `c` and `1` is not a word
boundary. -/
theorem tokenize_text_ne_spec_counterexample :
    tokenize_text "abc1".data = [] ∧ specTokenize "abc1".data = ["abc".data] := by
  decide

/-- **C1 (amended).** `tokenize_text` returns exactly the deduplicated set
of those maximal runs of ASCII alphabetic characters of the lowercased
input that are delimited by word boundaries — not adjacent to any letter,
digit or underscore — retaining only runs of length > 2.  (The boundary
characters being non-word forces maximality, since letters are word
characters.) -/
theorem tokenize_text_mem_iff (s t : List Char) :
    t ∈ tokenize_text s ↔
      2 < t.length ∧ alphaAll t ∧
        ∃ pre post, lowerStr s = pre ++ t ++ post ∧ lastBoundary pre ∧ headBoundary post := by
  rw [tokenize_text, List.mem_dedup, List.mem_filter]
  constructor
  · rintro ⟨hmem, hlen⟩
    have h := (scanStep_mem_iff (lowerStr s) t).mp hmem
    exact ⟨by simpa using hlen, h.2.1, h.2.2⟩
  · rintro ⟨hlen, hA, hdec⟩
    have hne : t ≠ [] := by
      intro h
      rw [h] at hlen
      simp at hlen
    exact ⟨(scanStep_mem_iff (lowerStr s) t).mpr ⟨hne, hA, hdec⟩, by simpa using hlen⟩

/-! ## C9 — shape of the tokens -/

/-- **C9.** Every token returned by `tokenize_text` is a lowercase
alphabetic string of length > 2, and the returned collection has no
duplicates. -/
theorem tokenize_text_tokens_shape (s : List Char) :
    (∀ t ∈ tokenize_text s, 2 < t.length ∧ ∀ c ∈ t, 'a' ≤ c ∧ c ≤ 'z') ∧
    (tokenize_text s).Nodup := by
  refine ⟨?_, List.nodup_dedup _⟩
  intro t ht
  rw [tokenize_text, List.mem_dedup, List.mem_filter] at ht
  obtain ⟨hmem, hlen⟩ := ht
  obtain ⟨_, hA, pre, post, hdec, _, _⟩ := (scanStep_mem_iff (lowerStr s) t).mp hmem
  refine ⟨by simpa using hlen, ?_⟩
  intro c hc
  have hcl : c ∈ lowerStr s := by
    rw [hdec]
    exact List.mem_append.mpr (Or.inl (List.mem_append.mpr (Or.inr hc)))
  obtain ⟨d, _, rfl⟩ := List.mem_map.mp hcl
  exact toLower_alpha_lower d (hA _ hc)

/-- Witness for C9. -/
theorem tokenize_text_tokens_shape_witness :
    "hello".data ∈ tokenize_text "Hello World".data ∧
    (2 < "hello".data.length ∧ ∀ c ∈ "hello".data, 'a' ≤ c ∧ c ≤ 'z') :=
  ⟨by decide, (tokenize_text_tokens_shape "Hello World".data).1 "hello".data (by decide)⟩

/-! ## C5 — indexing vs query tokenization -/

/-- Letters with code points in the lowercase range. -/
theorem alpha_of_toNat (x : Char) (h1 : 97 ≤ x.toNat) (h2 : x.toNat ≤ 122) :
    isAsciiAlpha x = true := by
  simp only [isAsciiAlpha, Bool.or_eq_true, Bool.and_eq_true, decide_eq_true_eq]
  left
  exact ⟨h1, h2⟩

/-- Lowercasing preserves ASCII letters. -/
theorem toLower_alpha (d : Char) (h : isAsciiAlpha d = true) :
    isAsciiAlpha (Char.toLower d) = true := by
  by_cases hd : d.toNat ≥ 65 ∧ d.toNat ≤ 90
  · rw [toLower_eq, if_pos hd]
    have hv : (d.toNat + 32).isValidChar := isValidChar_of_lt _ (by omega)
    have ht := char_toNat_ofNat (d.toNat + 32) hv
    exact alpha_of_toNat _ (by omega) (by omega)
  · rw [toLower_eq, if_neg hd]
    exact h

/-- Lowercasing fixes whitespace. -/
theorem toLower_wsp_eq (d : Char) (h : isWsp d = true) : Char.toLower d = d := by
  simp only [isWsp, Bool.or_eq_true, decide_eq_true_eq] at h
  rcases h with ((((rfl | rfl) | rfl) | rfl) | rfl) | rfl <;> decide

/-- Whitespace is never alphabetic. -/
theorem not_alpha_of_wsp (c : Char) (h : isWsp c = true) : isAsciiAlpha c = false := by
  simp only [isWsp, Bool.or_eq_true, decide_eq_true_eq] at h
  rcases h with ((((rfl | rfl) | rfl) | rfl) | rfl) | rfl <;> decide

/-- Whitespace is never a word character. -/
theorem not_word_of_wsp (c : Char) (h : isWsp c = true) : isWordChar c = false := by
  simp only [isWsp, Bool.or_eq_true, decide_eq_true_eq] at h
  rcases h with ((((rfl | rfl) | rfl) | rfl) | rfl) | rfl <;> decide

/-- Letters are never whitespace. -/
theorem not_wsp_of_alpha (c : Char) (h : isAsciiAlpha c = true) : isWsp c = false := by
  cases hw : isWsp c
  · rfl
  · rw [not_alpha_of_wsp c hw] at h
    cases h

/-- On a text of letters and whitespace only, the regex scanner and
`split_whitespace` produce the same word list. -/
theorem scan_eq_sw (l : List Char) :
    (∀ c ∈ l, isAsciiAlpha c = true ∨ isWsp c = true) →
    scanStep (.out false) l = swAux none l ∧
    ∀ acc, scanStep (.run true acc) l = swAux (some acc) l := by
  induction l with
  | nil => exact fun _ => ⟨rfl, fun acc => by simp [scanStep, swAux]⟩
  | cons c rest ih =>
    intro h
    obtain ⟨ih1, ih2⟩ := ih (fun x hx => h x (List.mem_cons_of_mem c hx))
    rcases h c (List.mem_cons_self c rest) with hα | hw
    · have hwsp : isWsp c = false := not_wsp_of_alpha c hα
      constructor
      · simp only [scanStep, hα, if_true, swAux, hwsp, Bool.false_eq_true, if_false]
        exact ih2 [c]
      · intro acc
        simp only [scanStep, hα, if_true, swAux, hwsp, Bool.false_eq_true, if_false]
        exact ih2 (c :: acc)
    · have hα' : isAsciiAlpha c = false := not_alpha_of_wsp c hw
      have hword : isWordChar c = false := not_word_of_wsp c hw
      constructor
      · simp only [scanStep, hα', Bool.false_eq_true, if_false, hword, swAux, hw, if_true]
        exact ih1
      · intro acc
        simp only [scanStep, hα', Bool.false_eq_true, if_false, hword, Bool.not_false,
          Bool.and_true, if_true, swAux, hw]
        rw [ih1]

/-- Counterexample to C5 as stated: on `"hello,world"` the query
tokenizer returns the single token `"hello,world"` while the indexing
tokenizer returns `"hello"` and `"world"` — the two token sets differ. -/
theorem tokenize_query_ne_tokenize_text :
    (tokenize_query "hello,world".data).toFinset ≠
      (tokenize_text "hello,world".data).toFinset := by
  decide

/-- **C5 (amended).** On texts made only of ASCII letters and whitespace,
the query tokenization (`tokenize_query`, whitespace splitting) and the
indexing tokenization (`tokenize_text`, alphabetic-run extraction) yield
the same set of tokens; in general they differ, because the query
tokenizer does not strip punctuation, digits or other non-alphabetic
characters. -/
theorem tokenize_query_eq_tokenize_text_of_alpha (s : List Char)
    (h : ∀ c ∈ s, isAsciiAlpha c = true ∨ isWsp c = true) :
    (tokenize_query s).toFinset = (tokenize_text s).toFinset := by
  have hl : ∀ c ∈ lowerStr s, isAsciiAlpha c = true ∨ isWsp c = true := by
    intro c hc
    obtain ⟨d, hd, rfl⟩ := List.mem_map.mp hc
    rcases h d hd with hα | hw
    · exact Or.inl (toLower_alpha d hα)
    · rw [toLower_wsp_eq d hw]
      exact Or.inr hw
  have heq := (scan_eq_sw (lowerStr s) hl).1
  rw [tokenize_query, tokenize_text, split_whitespace, heq, toFinset_dedup]

/-- Witness for C5 (amended). -/
theorem tokenize_query_eq_tokenize_text_of_alpha_witness :
    (∀ c ∈ "Pride And Prejudice".data, isAsciiAlpha c = true ∨ isWsp c = true) ∧
    (tokenize_query "Pride And Prejudice".data).toFinset =
      (tokenize_text "Pride And Prejudice".data).toFinset :=
  ⟨by decide, tokenize_query_eq_tokenize_text_of_alpha "Pride And Prejudice".data (by decide)⟩

/-! ## C7 — labeled header lines yield the fields -/

/-- Four consecutive digits occur somewhere in the list. -/
def hasFourDigitRun : List Char → Bool
  | a :: b :: c :: d :: rest =>
    (isDigitC a && isDigitC b && isDigitC c && isDigitC d) || hasFourDigitRun (b :: c :: d :: rest)
  | _ => false

/-- Dropping leading whitespace twice is dropping it once. -/
theorem dropWhile_wsp_idem (l : List Char) :
    (l.dropWhile isWsp).dropWhile isWsp = l.dropWhile isWsp := by
  induction l with
  | nil => rfl
  | cons a l ih =>
    rw [List.dropWhile_cons]
    by_cases ha : isWsp a = true
    · rw [if_pos ha]
      exact ih
    · have ha' : isWsp a = false := by
        cases hx : isWsp a
        · rfl
        · exact absurd hx ha
      rw [if_neg (by simp [ha'])]
      rw [List.dropWhile_cons, if_neg (by simp [ha'])]

/-- Trimming ignores already-dropped leading whitespace. -/
theorem trim_dropWhile (l : List Char) : trim (l.dropWhile isWsp) = trim l := by
  unfold trim
  rw [dropWhile_wsp_idem]

/-- The head of `dropWhile isWsp` is not whitespace. -/
theorem dropWhile_head_not_wsp (l : List Char) :
    ∀ c, (l.dropWhile isWsp).head? = some c → isWsp c = false := by
  induction l with
  | nil => intro c hc; cases hc
  | cons a l ih =>
    intro c hc
    rw [List.dropWhile_cons] at hc
    by_cases ha : isWsp a = true
    · rw [if_pos ha] at hc
      exact ih c hc
    · have ha' : isWsp a = false := by
        cases hx : isWsp a
        · rfl
        · exact absurd hx ha
      rw [if_neg (by simp [ha'])] at hc
      simp only [List.head?_cons, Option.some.injEq] at hc
      subst hc
      exact ha'

/-- `\s*` skips a whitespace prefix when the tail can match. -/
theorem capHelper_skip_wsp (w : List Char) (l : List Char) (cap : List Char)
    (hw : ∀ c ∈ w, isWsp c = true) (hcap : capHelper l = some cap) :
    capHelper (w ++ l) = some cap := by
  induction w with
  | nil => simpa using hcap
  | cons c w' ih =>
    have hc : isWsp c = true := hw c (List.mem_cons_self c w')
    have ih' := ih (fun x hx => hw x (List.mem_cons_of_mem c hx))
    simp only [List.cons_append, capHelper, hc, if_true]
    rw [show w'.append l = w' ++ l from rfl, ih']

/-- `(.+)` captures greedily from a non-whitespace character. -/
theorem capHelper_nonwsp (v after : List Char) (hvne : v ≠ [])
    (hhead : ∀ c, v.head? = some c → isWsp c = false) :
    capHelper (v ++ after) = some ((v ++ after).takeWhile (fun d => d ≠ '\n')) := by
  cases v with
  | nil => exact absurd rfl hvne
  | cons c v' =>
    have hc : isWsp c = false := hhead c rfl
    simp only [List.cons_append, capHelper, hc, Bool.false_eq_true, if_false]
    rfl

/-- The capture stops exactly at the newline. -/
theorem takeWhile_until_newline (v rest : List Char) (hnl : '\n' ∉ v) :
    (v ++ '\n' :: rest).takeWhile (fun d => d ≠ '\n') = v := by
  induction v with
  | nil => simp [List.takeWhile_cons]
  | cons c v' ih =>
    have hc : c ≠ '\n' := fun h => hnl (by simp [h])
    rw [List.cons_append, List.takeWhile_cons, if_pos (by simp [hc])]
    rw [ih (fun hm => hnl (List.mem_cons_of_mem c hm))]

/-- A label occurrence with a matchable tail is returned immediately. -/
theorem findLabelCap_found (lab L rest cap : List Char) (hlabne : lab ≠ [])
    (hL : lowerStr L = lab) (hcap : capHelper rest = some cap) :
    findLabelCap lab (L ++ rest) = some cap := by
  cases L with
  | nil =>
    exfalso
    apply hlabne
    rw [← hL]
    rfl
  | cons c L' =>
    have hlow : lowerStr (c :: (L' ++ rest)) = lab ++ lowerStr rest := by
      rw [← hL]
      simp [lowerStr]
    have hpre : lab.isPrefixOf (lowerStr (c :: (L' ++ rest))) = true := by
      rw [hlow]
      exact List.isPrefixOf_iff_prefix.mpr (List.prefix_append lab _)
    have hlen : lab.length = (c :: L').length := by
      rw [← hL]
      simp [lowerStr]
    have hdrop : (c :: (L' ++ rest)).drop lab.length = rest := by
      rw [hlen, show c :: (L' ++ rest) = (c :: L') ++ rest from by simp, List.drop_left]
    rw [List.cons_append, findLabelCap, if_pos hpre, hdrop, hcap]

/-- Positions strictly before an occurrence are skipped. -/
theorem findLabelCap_skip (lab : List Char) (x y : List Char)
    (h : ∀ i < x.length, lab.isPrefixOf (lowerStr ((x ++ y).drop i)) = false) :
    findLabelCap lab (x ++ y) = findLabelCap lab y := by
  induction x with
  | nil => simp
  | cons c x' ih =>
    have h0 : lab.isPrefixOf (lowerStr (c :: (x' ++ y))) = false := by
      have := h 0 (by simp)
      simpa using this
    rw [List.cons_append, findLabelCap, if_neg (by simp [h0])]
    exact ih (fun i hi => by
      have := h (i + 1) (by simp; omega)
      simpa using this)

/-- A labeled line `L ++ value ++ newline ++ rest` captures its
whitespace-stripped value. -/
theorem findLabelCap_line (lab L tval rest : List Char) (hlabne : lab ≠ [])
    (hL : lowerStr L = lab) (hnl : '\n' ∉ tval) (hnw : ∃ c ∈ tval, isWsp c = false) :
    findLabelCap lab (L ++ (tval ++ '\n' :: rest)) = some (tval.dropWhile isWsp) := by
  have hsplit : tval.takeWhile isWsp ++ tval.dropWhile isWsp = tval :=
    List.takeWhile_append_dropWhile isWsp tval
  have hwall : ∀ c ∈ tval.takeWhile isWsp, isWsp c = true := fun c hc =>
    List.mem_takeWhile_imp hc
  have hvne : tval.dropWhile isWsp ≠ [] := by
    intro hv
    obtain ⟨c, hc, hcw⟩ := hnw
    rw [← hsplit, hv, List.append_nil] at hc
    rw [hwall c hc] at hcw
    cases hcw
  have hvnl : '\n' ∉ tval.dropWhile isWsp := by
    intro hm
    apply hnl
    rw [← hsplit]
    exact List.mem_append.mpr (Or.inr hm)
  have hcapv : capHelper (tval.dropWhile isWsp ++ '\n' :: rest) =
      some (tval.dropWhile isWsp) := by
    rw [capHelper_nonwsp _ _ hvne (dropWhile_head_not_wsp tval),
      takeWhile_until_newline _ _ hvnl]
  have hcap : capHelper (tval ++ '\n' :: rest) = some (tval.dropWhile isWsp) := by
    conv_lhs => rw [← hsplit, List.append_assoc]
    exact capHelper_skip_wsp _ _ _ hwall hcapv
  exact findLabelCap_found lab L _ _ hlabne hL hcap

/-- Whitespace is not a digit. -/
theorem not_digit_of_wsp (c : Char) (h : isWsp c = true) : isDigitC c = false := by
  simp only [isWsp, Bool.or_eq_true, decide_eq_true_eq] at h
  rcases h with ((((rfl | rfl) | rfl) | rfl) | rfl) | rfl <;> decide

/-- A non-digit head blocks `\d{4}` here. -/
theorem fourDigitVal_none_head (a : Char) (rest : List Char) (h : isDigitC a = false) :
    fourDigitVal? (a :: rest) = none := by
  rcases rest with _ | ⟨b, _ | ⟨c, _ | ⟨d, tl⟩⟩⟩ <;> simp [fourDigitVal?, h]

/-- `\d{4}` anchored at a four-digit block captures its value. -/
theorem fourDigitVal_of (y e : List Char) (hy4 : y.length = 4)
    (hyd : ∀ c ∈ y, isDigitC c = true) :
    fourDigitVal? (y ++ e) = some (digitsVal y) := by
  rcases y with _ | ⟨a, _ | ⟨b, _ | ⟨c, _ | ⟨d, _ | ⟨x, tl⟩⟩⟩⟩⟩ <;> simp at hy4
  have ha := hyd a (by simp)
  have hb := hyd b (by simp)
  have hc := hyd c (by simp)
  have hd := hyd d (by simp)
  simp only [List.cons_append, List.nil_append, fourDigitVal?, ha, hb, hc, hd, Bool.and_self,
    if_true, digitsVal, List.foldl_cons, List.foldl_nil]
  congr 1
  omega

/-- The lazy scan succeeds immediately on an anchored match. -/
theorem scanLine_here (l : List Char) (yv : Nat) (hne : l ≠ [])
    (h : fourDigitVal? l = some yv) : scanLine l = some yv := by
  cases l with
  | nil => exact absurd rfl hne
  | cons c rest => rw [scanLine, h]

/-- `hasFourDigitRun` is monotone under dropping the head. -/
theorem hasFourDigitRun_tail (c : Char) (dp : List Char)
    (h : hasFourDigitRun (c :: dp) = false) : hasFourDigitRun dp = false := by
  rcases dp with _ | ⟨b, _ | ⟨c2, _ | ⟨d2, tl⟩⟩⟩
  · rfl
  · rfl
  · rfl
  · rw [hasFourDigitRun, Bool.or_eq_false_iff] at h
    exact h.2

/-- The lazy scan passes over a digit-free-run, newline-free segment whose
last character is not a digit. -/
theorem scanLine_append (dpart : List Char) : ∀ (tail : List Char) (yv : Nat),
    hasFourDigitRun dpart = false →
    (∀ c, dpart.getLast? = some c → isDigitC c = false) →
    '\n' ∉ dpart →
    scanLine tail = some yv →
    scanLine (dpart ++ tail) = some yv := by
  induction dpart with
  | nil => intro tail yv _ _ _ hsl; simpa using hsl
  | cons c dp ih =>
    intro tail yv hnr hld hnl hsl
    have hcne : c ≠ '\n' := fun h => hnl (by simp [h])
    have hld' : ∀ x, dp.getLast? = some x → isDigitC x = false := by
      intro x hx
      apply hld
      cases dp with
      | nil => cases hx
      | cons u us => rw [List.getLast?_cons_cons]; exact hx
    have hfd : fourDigitVal? (c :: (dp ++ tail)) = none := by
      rcases dp with _ | ⟨b, _ | ⟨c2, _ | ⟨d2, tl⟩⟩⟩
      · exact fourDigitVal_none_head c tail (hld c rfl)
      · have hb : isDigitC b = false := hld b (by simp)
        rcases tail with _ | ⟨t1, _ | ⟨t2, tt⟩⟩ <;> simp [fourDigitVal?, hb]
      · have hc2 : isDigitC c2 = false := hld c2 (by simp)
        rcases tail with _ | ⟨t1, tt⟩ <;> simp [fourDigitVal?, hc2]
      · rw [hasFourDigitRun, Bool.or_eq_false_iff] at hnr
        simp only [List.cons_append, fourDigitVal?, hnr.1, Bool.false_eq_true, if_false]
    rw [List.cons_append, scanLine, hfd, if_neg hcne]
    exact ih tail yv (hasFourDigitRun_tail c dp hnr) hld' (fun hm => hnl (by simp [hm])) hsl

/-- When the lazy scan alone succeeds, the greedy `\s*` backtracking
returns the same first match. -/
theorem digitsAfter_of_scanLine (l : List Char) : ∀ yv : Nat,
    scanLine l = some yv → digitsAfter l = some yv := by
  induction l with
  | nil => intro yv h; cases h
  | cons c rest ih =>
    intro yv h
    by_cases hw : isWsp c = true
    · have hcd : isDigitC c = false := not_digit_of_wsp c hw
      have hfd : fourDigitVal? (c :: rest) = none := fourDigitVal_none_head c rest hcd
      rw [scanLine, hfd] at h
      by_cases hcn : c = '\n'
      · rw [if_pos hcn] at h
        cases h
      · rw [if_neg hcn] at h
        simp only [digitsAfter, hw, if_true, ih yv h]
    · have hw' : isWsp c = false := by
        cases hx : isWsp c
        · rfl
        · exact absurd hx hw
      simp only [digitsAfter, hw', Bool.false_eq_true, if_false]
      exact h

/-- Positions strictly before the date label are skipped by the year
regex. -/
theorem findYear_skip (x : List Char) : ∀ y : List Char,
    (∀ i < x.length, ∀ lab ∈ dateLabels, lab.isPrefixOf (lowerStr ((x ++ y).drop i)) = false) →
    findYear (x ++ y) = findYear y := by
  induction x with
  | nil => intro y _; simp
  | cons c x' ih =>
    intro y h
    have h0 : ∀ lab ∈ dateLabels, lab.isPrefixOf (lowerStr (c :: (x' ++ y))) = false := by
      intro lab hm
      have := h 0 (by simp) lab hm
      simpa using this
    have hfs : dateLabels.findSome? (fun lab =>
        if lab.isPrefixOf (lowerStr (c :: (x' ++ y))) then
          digitsAfter ((c :: (x' ++ y)).drop lab.length) else none) = none := by
      apply List.findSome?_eq_none_iff.mpr
      intro lab hm
      rw [if_neg (by simp [h0 lab hm])]
    rw [List.cons_append, findYear, hfs]
    exact ih y (fun i hi lab hm => by
      have := h (i + 1) (by simp; omega) lab hm
      simpa using this)

/-- The year regex matches at a `release date:`-labelled position and
returns what `\s*.*?(\d{4})` finds after it. -/
theorem findYear_found (L rest : List Char) (yv : Nat)
    (hL : lowerStr L = "release date:".data) (hda : digitsAfter rest = some yv) :
    findYear (L ++ rest) = some yv := by
  cases L with
  | nil =>
    exfalso
    have : ("release date:".data : List Char) = [] := by rw [← hL]; rfl
    cases this
  | cons c L' =>
    have hlow : lowerStr (c :: (L' ++ rest)) = "release date:".data ++ lowerStr rest := by
      rw [← hL]
      simp [lowerStr]
    have hpre : ("release date:".data).isPrefixOf (lowerStr (c :: (L' ++ rest))) = true := by
      rw [hlow]
      exact List.isPrefixOf_iff_prefix.mpr (List.prefix_append _ _)
    have hlen : ("release date:".data).length = (c :: L').length := by
      rw [← hL]
      simp [lowerStr]
    have hdrop : (c :: (L' ++ rest)).drop ("release date:".data).length = rest := by
      rw [hlen, show c :: (L' ++ rest) = (c :: L') ++ rest from by simp, List.drop_left]
    have hfs : dateLabels.findSome? (fun lab =>
        if lab.isPrefixOf (lowerStr (c :: (L' ++ rest))) then
          digitsAfter ((c :: (L' ++ rest)).drop lab.length) else none) = some yv := by
      rw [dateLabels, List.findSome?_cons]
      simp only [hpre, if_true, hdrop, hda]
    rw [List.cons_append, findYear, hfs]

/-- The last character, if any, is not a digit (decidable form). -/
def lastNotDigit (l : List Char) : Bool :=
  match l.getLast? with
  | none => true
  | some c => !isDigitC c

/-- **C7.** Metadata extraction is case-insensitive and line-oriented: on
a header whose lines carry the labels `title:`, `author:`, `language:`
and `release date:` in any letter casing, each labelled line yields its
(trimmed) value, and the date-labelled line yields the first 4-digit
number found after the label as the year. -/
theorem extract_metadata_labeled_lines
    (Lt t La a Ll lg Ld d y e restA restL restD header : List Char) (book_id : Nat)
    (hrD : restD = Ld ++ (d ++ (y ++ e)))
    (hrL : restL = Ll ++ (lg ++ '\n' :: restD))
    (hrA : restA = La ++ (a ++ '\n' :: restL))
    (hH : header = Lt ++ (t ++ '\n' :: restA))
    (hLt : lowerStr Lt = "title:".data)
    (hLa : lowerStr La = "author:".data)
    (hLl : lowerStr Ll = "language:".data)
    (hLd : lowerStr Ld = "release date:".data)
    (htn : '\n' ∉ t) (htw : ∃ c ∈ t, isWsp c = false)
    (han : '\n' ∉ a) (haw : ∃ c ∈ a, isWsp c = false)
    (hgn : '\n' ∉ lg) (hgw : ∃ c ∈ lg, isWsp c = false)
    (hdn : '\n' ∉ d) (hdr : hasFourDigitRun d = false)
    (hdl : lastNotDigit d = true)
    (hy4 : y.length = 4) (hyd : ∀ c ∈ y, isDigitC c = true)
    (hOa : ∀ i < (Lt ++ t ++ ['\n']).length,
      "author:".data.isPrefixOf (lowerStr (header.drop i)) = false)
    (hOl : ∀ i < (Lt ++ t ++ ['\n'] ++ La ++ a ++ ['\n']).length,
      "language:".data.isPrefixOf (lowerStr (header.drop i)) = false)
    (hOd : ∀ i < (Lt ++ t ++ ['\n'] ++ La ++ a ++ ['\n'] ++ Ll ++ lg ++ ['\n']).length,
      ∀ lab ∈ dateLabels, lab.isPrefixOf (lowerStr (header.drop i)) = false) :
    extract_metadata_from_header header book_id =
      { book_id := book_id, title := trim t, author := trim a, language := trim lg,
        year := some (digitsVal y), word_count := 0, unique_words := 0 } := by
  subst hrD hrL hrA hH
  have hT : findLabelCap "title:".data
      (Lt ++ (t ++ '\n' :: (La ++ (a ++ '\n' :: (Ll ++ (lg ++ '\n' :: (Ld ++ (d ++ (y ++ e)))))))))
      = some (t.dropWhile isWsp) :=
    findLabelCap_line "title:".data Lt t _ (by decide) hLt htn htw
  have egA : Lt ++ (t ++ '\n' :: (La ++ (a ++ '\n' :: (Ll ++ (lg ++ '\n' :: (Ld ++ (d ++ (y ++ e)))))))) =
      (Lt ++ t ++ ['\n']) ++ (La ++ (a ++ '\n' :: (Ll ++ (lg ++ '\n' :: (Ld ++ (d ++ (y ++ e))))))) := by
    simp
  have hA : findLabelCap "author:".data
      (Lt ++ (t ++ '\n' :: (La ++ (a ++ '\n' :: (Ll ++ (lg ++ '\n' :: (Ld ++ (d ++ (y ++ e)))))))))
      = some (a.dropWhile isWsp) := by
    rw [egA,
      findLabelCap_skip "author:".data (Lt ++ t ++ ['\n']) _
        (fun i hi => by rw [← egA]; exact hOa i hi)]
    exact findLabelCap_line "author:".data La a _ (by decide) hLa han haw
  have egL : Lt ++ (t ++ '\n' :: (La ++ (a ++ '\n' :: (Ll ++ (lg ++ '\n' :: (Ld ++ (d ++ (y ++ e)))))))) =
      (Lt ++ t ++ ['\n'] ++ La ++ a ++ ['\n']) ++ (Ll ++ (lg ++ '\n' :: (Ld ++ (d ++ (y ++ e))))) := by
    simp
  have hL : findLabelCap "language:".data
      (Lt ++ (t ++ '\n' :: (La ++ (a ++ '\n' :: (Ll ++ (lg ++ '\n' :: (Ld ++ (d ++ (y ++ e)))))))))
      = some (lg.dropWhile isWsp) := by
    rw [egL,
      findLabelCap_skip "language:".data (Lt ++ t ++ ['\n'] ++ La ++ a ++ ['\n']) _
        (fun i hi => by rw [← egL]; exact hOl i hi)]
    exact findLabelCap_line "language:".data Ll lg _ (by decide) hLl hgn hgw
  have egD : Lt ++ (t ++ '\n' :: (La ++ (a ++ '\n' :: (Ll ++ (lg ++ '\n' :: (Ld ++ (d ++ (y ++ e)))))))) =
      (Lt ++ t ++ ['\n'] ++ La ++ a ++ ['\n'] ++ Ll ++ lg ++ ['\n']) ++ (Ld ++ (d ++ (y ++ e))) := by
    simp
  have hyne : (y ++ e) ≠ [] := by
    cases y with
    | nil => simp at hy4
    | cons c ys => simp
  have hdl' : ∀ c, d.getLast? = some c → isDigitC c = false := by
    intro c hc
    unfold lastNotDigit at hdl
    rw [hc] at hdl
    simpa using hdl
  have hda : digitsAfter (d ++ (y ++ e)) = some (digitsVal y) :=
    digitsAfter_of_scanLine _ _
      (scanLine_append d (y ++ e) _ hdr hdl' hdn
        (scanLine_here (y ++ e) _ hyne (fourDigitVal_of y e hy4 hyd)))
  have hY : findYear
      (Lt ++ (t ++ '\n' :: (La ++ (a ++ '\n' :: (Ll ++ (lg ++ '\n' :: (Ld ++ (d ++ (y ++ e)))))))))
      = some (digitsVal y) := by
    rw [egD,
      findYear_skip (Lt ++ t ++ ['\n'] ++ La ++ a ++ ['\n'] ++ Ll ++ lg ++ ['\n']) _
        (fun i hi lab hm => by rw [← egD]; exact hOd i hi lab hm)]
    exact findYear_found Ld (d ++ (y ++ e)) _ hLd hda
  simp only [extract_metadata_from_header, hT, hA, hL, hY, Option.map_some', Option.getD_some,
    trim_dropWhile]

/-- Witness for C7 on a mixed-casing Gutenberg-style header. -/
theorem extract_metadata_labeled_lines_witness :
    extract_metadata_from_header
      "TITLE: Pride and Prejudice\nAuthor: Jane Austen\nLaNgUaGe: en\nRelease Date: June 25, 2008 [EBook #1342]".data
      1342 =
      { book_id := 1342, title := "Pride and Prejudice".data, author := "Jane Austen".data,
        language := "en".data, year := some 2008, word_count := 0, unique_words := 0 } :=
  (extract_metadata_labeled_lines "TITLE:".data " Pride and Prejudice".data "Author:".data
      " Jane Austen".data "LaNgUaGe:".data " en".data "Release Date:".data " June 25, ".data
      "2008".data " [EBook #1342]".data
      "Author: Jane Austen\nLaNgUaGe: en\nRelease Date: June 25, 2008 [EBook #1342]".data
      "LaNgUaGe: en\nRelease Date: June 25, 2008 [EBook #1342]".data
      "Release Date: June 25, 2008 [EBook #1342]".data
      "TITLE: Pride and Prejudice\nAuthor: Jane Austen\nLaNgUaGe: en\nRelease Date: June 25, 2008 [EBook #1342]".data
      1342
      (by decide) (by decide) (by decide) (by decide) (by decide) (by decide) (by decide)
      (by decide) (by decide) (by decide) (by decide) (by decide) (by decide) (by decide)
      (by decide) (by decide) (by decide) (by decide) (by decide) (by decide) (by decide)
      (by decide)).trans (by decide)
